import Mathlib

/-!
Verification development for the repository's parsing-and-scope-resolution
engine (the Babel-based AST walker `parseJsOrTsFile` with its scope stack),
the Neo4j graph-sink writers, and the batch driver `handleProceedClick`.

The JavaScript/TypeScript AST is shallowly embedded as a rose tree whose
node kinds carry exactly the data the engine inspects (identifiers, source
start offsets, method keys).  The Babel `traverse` call is embedded as a
structural pre/post-order walk threading an explicit traversal state
(the `functionStack` of enclosing qualified names plus the accumulated
entity and relationship records).
-/

/-- The closed set of entity kinds emitted by the engine
(the `type` field of a discovered node in `ParserResult`). -/
inductive EntityType where
  | functionDeclaration
  | classDeclaration
  | classExpression
  | classMethod
  | classPrivateMethod
  | objectMethod
  | functionExpression
  | arrowFunction
  | anonymousFunction
  | functionReference
deriving DecidableEq, Repr

/-- A method/property key as the engine distinguishes them:
`t.isIdentifier`, `t.isStringLiteral`, `t.isNumericLiteral`, or anything
else (e.g. a computed non-literal key). -/
inductive MKey where
  | ident (name : String)
  | strLit (value : String)
  | numLit (value : Nat)
  | other
deriving DecidableEq, Repr

/-- The per-node data of the embedded Babel AST node kinds.  Only the
fields the engine reads are kept: optional identifiers, source start
offsets (`node.start`), keys, and the `computed` flag of member
expressions.  `otherNode` stands for every node type without a visitor
(expression statements, blocks, variable declarations, ...). -/
inductive NodeKind where
  | program
  | functionDeclaration (id : Option String) (start : Nat)
  | classDeclaration (id : Option String) (start : Nat)
  | classExpression (id : Option String) (start : Nat)
  | classMethod (key : MKey)
  | classPrivateMethod (keyId : Option String)
  | objectMethod (key : MKey)
  | functionExpression (start : Nat)
  | arrowFunctionExpression (start : Nat)
  | callExpression
  | memberExpression (computed : Bool)
  | identifier (name : String)
  | variableDeclarator (id : Option String)
  | objectProperty (key : MKey)
  | objectExpression
  | otherNode
deriving DecidableEq, Repr

/-- A Babel AST node: a kind plus the list of child nodes in traversal
order.  For a `callExpression` the first child is the callee and the rest
are the arguments; for a `memberExpression` the children are
`[object, property]`; for a `variableDeclarator` the children are the
initializer. -/
inductive JsNode where
  | mk (kind : NodeKind) (children : List JsNode)

/-- The kind of a node. -/
def JsNode.kind : JsNode → NodeKind
  | .mk k _ => k

/-- The children of a node. -/
def JsNode.children : JsNode → List JsNode
  | .mk _ cs => cs

/-- A discovered entity record: `{ type, name }` as pushed on
`discoveredNodes` by `recordNodeInNeo4j`. -/
structure AstRecord where
  name : String
  type : EntityType
deriving DecidableEq, Repr

/-- A discovered relationship record: `{ caller, callee, relationshipType }`
as pushed on `discoveredRelationships` by `recordRelationshipInNeo4j`. -/
structure RelRecord where
  caller : String
  callee : String
  relationshipType : String
deriving DecidableEq, Repr

/-- The traversal-local state of `parseJsOrTsFile`: the scope stack
(`functionStack`, top of stack is the list head) plus the accumulated
entity and relationship records. -/
structure TraState where
  functionStack : List String
  nodes : List AstRecord
  relationships : List RelRecord
deriving DecidableEq, Repr

/-- `recordNodeInNeo4j`: pushes a `{type, name}` record on the discovered
nodes (the accompanying `fetch` to `/api/ast-save` is the graph-sink
transport, modelled separately). -/
def recordNodeInNeo4j (st : TraState) (entityName : String) (entityType : EntityType) :
    TraState :=
  { st with nodes := st.nodes ++ [⟨entityName, entityType⟩] }

/-- `recordRelationshipInNeo4j`: pushes a `{caller, callee,
relationshipType}` record on the discovered relationships. -/
def recordRelationshipInNeo4j (st : TraState) (callerName calleeName relationshipType : String) :
    TraState :=
  { st with relationships := st.relationships ++ [⟨callerName, calleeName, relationshipType⟩] }

/-- `functionStack.push(name)` (top of stack is the head). -/
def pushStack (st : TraState) (name : String) : TraState :=
  { st with functionStack := name :: st.functionStack }

/-- `functionStack.pop()`; on an empty stack it removes nothing, exactly
like `Array.prototype.pop`. -/
def popStack (st : TraState) : TraState :=
  { st with functionStack := st.functionStack.tail }

/-- `getFunctionName(path)`: a named function declaration uses its own
identifier; a function/arrow expression that directly initializes a
variable declarator with a simple identifier uses that identifier; any
other function gets the placeholder `anonymous_<start>`. The first
argument is `path.parent` (the nearest ancestor). -/
def getFunctionName (parent : Option JsNode) (n : JsNode) : String :=
  match n with
  | .mk (.functionDeclaration (some nm) _) _ => nm
  | .mk (.functionDeclaration none start) _ => "anonymous_" ++ toString start
  | .mk (.functionExpression start) _ =>
      match parent with
      | some (.mk (.variableDeclarator (some nm)) _) => nm
      | _ => "anonymous_" ++ toString start
  | .mk (.arrowFunctionExpression start) _ =>
      match parent with
      | some (.mk (.variableDeclarator (some nm)) _) => nm
      | _ => "anonymous_" ++ toString start
  | _ => "anonymous_0"

/-- `getEnclosingClassName(path)`: climb the ancestor chain (nearest
first) until a named class declaration or class expression is found;
otherwise `"anonymousClass"`. -/
def getEnclosingClassName : List JsNode → String
  | [] => "anonymousClass"
  | .mk (.classDeclaration (some nm) _) _ :: _ => nm
  | .mk (.classExpression (some nm) _) _ :: _ => nm
  | _ :: rest => getEnclosingClassName rest

/-- `getEnclosingObjectName(path)`: climb the ancestor chain until a
variable declarator with a simple identifier is found; otherwise
`"anonymousObject"`. -/
def getEnclosingObjectName : List JsNode → String
  | [] => "anonymousObject"
  | .mk (.variableDeclarator (some nm)) _ :: _ => nm
  | _ :: rest => getEnclosingObjectName rest

/-- The `methodName` computation shared by the `ClassMethod` and
`ObjectMethod` handlers: identifier keys verbatim, string/numeric literal
keys stringified, anything else the given placeholder. -/
def methodNameOfKey (placeholder : String) : MKey → String
  | .ident nm => nm
  | .strLit v => v
  | .numLit v => toString v
  | .other => placeholder

/-- JavaScript's `String.prototype.startsWith`, embedded as a character
prefix check. -/
def strStartsWith (s pre : String) : Bool :=
  pre.data.isPrefixOf s.data

/-- The object part of a member-expression callee
(`t.isIdentifier(callee.object) ? name : "unknownObj"`). -/
def memberObjPart : List JsNode → String
  | .mk (.identifier nm) _ :: _ => nm
  | _ => "unknownObj"

/-- The property part of a member-expression callee
(`t.isIdentifier(callee.property) ? name : "unknownProp"`). -/
def memberPropPart : List JsNode → String
  | _ :: .mk (.identifier nm) _ :: _ => nm
  | _ => "unknownProp"

/-- The callee-name computation of the `CallExpression` handler: a simple
identifier verbatim; a member expression as `object.property` with
`unknownObj`/`unknownProp` placeholders; any other callee shape the fixed
literal `"anonymous_call"`. -/
def calleeNameOf (callee : JsNode) : String :=
  match callee with
  | .mk (.identifier nm) _ => nm
  | .mk (.memberExpression _) cs => memberObjPart cs ++ "." ++ memberPropPart cs
  | _ => "anonymous_call"

/-- Whether a node kind has a push/pop visitor pair in the engine:
module root, function declaration, class declaration, class expression,
class method, private class method, object method, function expression,
arrow function expression. -/
def scopeIntroducing (n : JsNode) : Bool :=
  match n.kind with
  | .program => true
  | .functionDeclaration _ _ => true
  | .classDeclaration _ _ => true
  | .classExpression _ _ => true
  | .classMethod _ => true
  | .classPrivateMethod _ => true
  | .objectMethod _ => true
  | .functionExpression _ => true
  | .arrowFunctionExpression _ => true
  | _ => false

/-- The `enter` phase of the visitor for one node.  `anc` is the ancestor
chain, nearest ancestor first (so `anc.head?` is `path.parent`). -/
def enterStep (anc : List JsNode) (st : TraState) (n : JsNode) : TraState :=
  match n with
  | .mk .program _ => pushStack st "GLOBAL"
  | .mk (.classDeclaration id start) _ =>
      let className := match id with
        | some nm => nm
        | none => "anonymousClass_" ++ toString start
      recordNodeInNeo4j (pushStack st className) className .classDeclaration
  | .mk (.classExpression id start) _ =>
      let className := match id with
        | some nm => nm
        | none => "anonymousClass_" ++ toString start
      recordNodeInNeo4j (pushStack st className) className .classExpression
  | .mk (.classMethod key) _ =>
      let className := getEnclosingClassName anc
      let methodName := methodNameOfKey "unknownMethod" key
      let qualifiedName := className ++ "." ++ methodName
      recordNodeInNeo4j (pushStack st qualifiedName) qualifiedName .classMethod
  | .mk (.classPrivateMethod keyId) _ =>
      let className := getEnclosingClassName anc
      let privateKey := keyId.getD "privateMethod"
      let qualifiedName := className ++ ".#" ++ privateKey
      recordNodeInNeo4j (pushStack st qualifiedName) qualifiedName .classPrivateMethod
  | .mk (.objectMethod key) _ =>
      let objectName := getEnclosingObjectName anc
      let methodName := methodNameOfKey "unknownObjMethod" key
      let qualifiedName := objectName ++ "." ++ methodName
      recordNodeInNeo4j (pushStack st qualifiedName) qualifiedName .objectMethod
  | .mk (.functionDeclaration id start) cs =>
      let funcName := getFunctionName anc.head? (.mk (.functionDeclaration id start) cs)
      recordNodeInNeo4j (pushStack st funcName) funcName .functionDeclaration
  | .mk (.functionExpression start) cs =>
      let baseFuncName := getFunctionName anc.head? (.mk (.functionExpression start) cs)
      match anc.head? with
      | some (.mk (.objectProperty (.ident keyName)) _) =>
          let objectName := getEnclosingObjectName anc
          let qualifiedName := objectName ++ "." ++ keyName
          recordNodeInNeo4j (pushStack st qualifiedName) qualifiedName .functionExpression
      | _ =>
          let nodeType := if strStartsWith baseFuncName "anonymous_" then
            EntityType.anonymousFunction else EntityType.functionExpression
          recordNodeInNeo4j (pushStack st baseFuncName) baseFuncName nodeType
  | .mk (.arrowFunctionExpression start) cs =>
      let baseFuncName := getFunctionName anc.head? (.mk (.arrowFunctionExpression start) cs)
      match anc.head? with
      | some (.mk (.objectProperty (.ident keyName)) _) =>
          let objectName := getEnclosingObjectName anc
          let qualifiedName := objectName ++ "." ++ keyName
          recordNodeInNeo4j (pushStack st qualifiedName) qualifiedName .arrowFunction
      | _ =>
          let nodeType := if strStartsWith baseFuncName "anonymous_" then
            EntityType.anonymousFunction else EntityType.arrowFunction
          recordNodeInNeo4j (pushStack st baseFuncName) baseFuncName nodeType
  | .mk .callExpression cs =>
      match st.functionStack with
      | [] => st
      | callerName :: _ =>
          let calleeName := match cs with
            | c :: _ => calleeNameOf c
            | [] => "anonymous_call"
          recordRelationshipInNeo4j
            (recordNodeInNeo4j st calleeName .functionReference)
            callerName calleeName "CALLS"
  | _ => st

/-- The `exit` phase of the visitor for one node: every scope-introducing
node pops the scope stack; other nodes have no exit handler. -/
def exitStep (n : JsNode) (st : TraState) : TraState :=
  if scopeIntroducing n then popStack st else st

mutual

/-- The Babel `traverse`: enter the node, walk the children with the node
prepended to the ancestor chain, then exit the node. -/
def visit (anc : List JsNode) (st : TraState) : JsNode → TraState
  | .mk k cs =>
      exitStep (.mk k cs) (visitList (.mk k cs :: anc) (enterStep anc st (.mk k cs)) cs)

/-- Walk a list of sibling nodes left to right. -/
def visitList (anc : List JsNode) (st : TraState) : List JsNode → TraState
  | [] => st
  | c :: cs => visitList anc (visit anc st c) cs

end

/-- Run a whole file's traversal from the module root with the empty
state (the stack starts empty; the `Program` visitor pushes the
`"GLOBAL"` sentinel). -/
def runTraversal (ast : JsNode) : TraState :=
  visit [] ⟨[], [], []⟩ ast

/-- The result of `parseJsOrTsFile` for one file. -/
structure ParserResult where
  filePath : String
  nodes : List AstRecord
  relationships : List RelRecord
deriving DecidableEq, Repr

/-- `parseJsOrTsFile(code, filePath)` after a successful parse of `code`
into `ast`: run the traversal and package the discovered records. -/
def parseJsOrTsFile (ast : JsNode) (filePath : String) : ParserResult :=
  let final := runTraversal ast
  ⟨filePath, final.nodes, final.relationships⟩

/-- Whether a node is a call expression. -/
def isCallExpr (n : JsNode) : Bool :=
  match n.kind with
  | .callExpression => true
  | _ => false

mutual

/-- The number of call-expression nodes in a tree. -/
def countCalls : JsNode → Nat
  | .mk k cs => (if k = .callExpression then 1 else 0) + countCallsList cs

/-- The number of call-expression nodes in a forest. -/
def countCallsList : List JsNode → Nat
  | [] => 0
  | c :: cs => countCalls c + countCallsList cs

end

/-- The number of `FunctionReference` records in a record list. -/
def countFR (l : List AstRecord) : Nat :=
  l.countP (fun r => r.type == EntityType.functionReference)

/-- An optional identifier is well formed when, if present, it is not the
empty string (Babel never produces empty identifiers from parsed text). -/
def wfOptName : Option String → Bool
  | some nm => nm != ""
  | none => true

/-- A method key is well formed when an identifier key is non-empty. -/
def wfKey : MKey → Bool
  | .ident nm => nm != ""
  | _ => true

/-- The per-node well-formedness of the data an AST node carries:
every identifier occurring in it is non-empty.  This captures exactly the
ASTs that can arise from parsing an actual input file. -/
def wfKind : NodeKind → Bool
  | .functionDeclaration id _ => wfOptName id
  | .classDeclaration id _ => wfOptName id
  | .classExpression id _ => wfOptName id
  | .classMethod k => wfKey k
  | .classPrivateMethod keyId => wfOptName keyId
  | .objectMethod k => wfKey k
  | .identifier nm => nm != ""
  | .variableDeclarator id => wfOptName id
  | .objectProperty k => wfKey k
  | _ => true

mutual

/-- Deep well-formedness of an AST node. -/
def wfNode : JsNode → Bool
  | .mk k cs => wfKind k && wfList cs

/-- Deep well-formedness of a forest. -/
def wfList : List JsNode → Bool
  | [] => true
  | c :: cs => wfNode c && wfList cs

end

/-- Shallow well-formedness of every node on an ancestor chain. -/
def ancWf (anc : List JsNode) : Bool :=
  anc.all (fun a => wfKind a.kind)

/-!  ## The Graph Sink

Two sink implementations exist in the repository.  Both are modelled on
an explicit graph state; Cypher `MERGE` is embedded as match-or-create
(`insertIfAbsent`), `CREATE` as an unconditional append.
-/

/-- Append an element unless an equal one is already stored (the effect
of a Cypher `MERGE` whose pattern mentions every property of the node or
relationship). -/
def insertIfAbsent {α : Type} [DecidableEq α] (a : α) (l : List α) : List α :=
  if a ∈ l then l else l ++ [a]

/-- An `AstNode` of the `CREATE`-based sink
(`packages/ui/src/lib/neo4jConnection.ts`): its three properties, each
optional because relationship merges create bare nodes carrying only a
name. -/
structure AstNodeA where
  filePath : Option String
  name : String
  type : Option String
deriving DecidableEq, Repr

/-- One Cypher `MERGE (n {name: $nm})` on a node table: bind every node
carrying that name, or create (and bind) a bare node with only the name.
Returns the updated table and the bound nodes. -/
def mergeNodesByName {ν : Type} [DecidableEq ν] (nameOf : ν → String) (mkBare : String → ν)
    (nm : String) (nodes : List ν) : List ν × List ν :=
  if nodes.filter (fun nd => nameOf nd == nm) = [] then (nodes ++ [mkBare nm], [mkBare nm])
  else (nodes, nodes.filter (fun nd => nameOf nd == nm))

/-- The generic effect of
`MERGE (caller {name: $c}) MERGE (callee {name: $e}) MERGE (caller)-[r:TYPE]->(callee)`
on a node table and an edge table: each node `MERGE`, keyed by name only,
binds every node with that name, or creates a bare one; the edge `MERGE`
then runs once per bound caller/callee pair, adding the edge unless it is
already present. -/
def mergeRelGen {ν : Type} [DecidableEq ν] (nameOf : ν → String) (mkBare : String → ν)
    (callerName calleeName relationshipType : String)
    (nodes : List ν) (rels : List (ν × String × ν)) :
    List ν × List (ν × String × ν) :=
  let rc := mergeNodesByName nameOf mkBare callerName nodes
  let re := mergeNodesByName nameOf mkBare calleeName rc.1
  let pairs := rc.2.flatMap (fun c => re.2.map (fun e => (c, relationshipType, e)))
  (re.1, pairs.foldl (fun rs r => insertIfAbsent r rs) rels)

/-- The stored graph of the `CREATE`-based sink. -/
structure GraphA where
  astNodes : List AstNodeA
  rels : List (AstNodeA × String × AstNodeA)
deriving DecidableEq, Repr

namespace NeoCreate

/-- `createAstNodeInNeo4j` of `packages/ui/src/lib/neo4jConnection.ts`:
`CREATE (n:AstNode { filePath, name, type })` — an unconditional append,
one new node per call. -/
def createAstNodeInNeo4j (filePath entityName entityType : String) (g : GraphA) : GraphA :=
  { g with astNodes := g.astNodes ++ [⟨some filePath, entityName, some entityType⟩] }

/-- `createAstRelationshipInNeo4j` of the same file:
`MERGE` both endpoints by name, then `MERGE` the edge. -/
def createAstRelationshipInNeo4j (callerName calleeName relationshipType : String)
    (g : GraphA) : GraphA :=
  let r := mergeRelGen AstNodeA.name (fun nm => ⟨none, nm, none⟩)
    callerName calleeName relationshipType g.astNodes g.rels
  ⟨r.1, r.2⟩

end NeoCreate

/-- An `AstEntity` node of the `MERGE`-based sink (the revision of
`neo4jConnection` that upserts): name plus optional type. -/
structure EntityB where
  name : String
  type : Option String
deriving DecidableEq, Repr

/-- The stored graph of the `MERGE`-based sink: `File` nodes (keyed by
their only property, the path), `AstEntity` nodes, `CONTAINS_ENTITY`
edges and typed entity-to-entity edges. -/
structure GraphB where
  fileNodes : List String
  entityNodes : List EntityB
  containsRels : List (String × EntityB)
  rels : List (EntityB × String × EntityB)
deriving DecidableEq, Repr

namespace NeoMerge

/-- `createAstNodeInNeo4j` of the `MERGE`-based revision:
`MERGE (f:File {path}) MERGE (n:AstEntity {name, type}) MERGE (f)-[:CONTAINS_ENTITY]->(n)`.
Because a `File` node carries only its path and an `AstEntity` node
exactly the two keyed properties, every node matched by those `MERGE`
patterns equals the record built from the parameters, so match-or-create
is `insertIfAbsent` of that record. -/
def createAstNodeInNeo4j (filePath entityName entityType : String) (g : GraphB) : GraphB :=
  { g with
    fileNodes := insertIfAbsent filePath g.fileNodes
    entityNodes := insertIfAbsent ⟨entityName, some entityType⟩ g.entityNodes
    containsRels := insertIfAbsent (filePath, (⟨entityName, some entityType⟩ : EntityB))
      g.containsRels }

/-- `createAstRelationshipInNeo4j` of the `MERGE`-based revision:
`MERGE` both `AstEntity` endpoints by name only, then `MERGE` the typed
edge. -/
def createAstRelationshipInNeo4j (callerName calleeName relationshipType : String)
    (g : GraphB) : GraphB :=
  let r := mergeRelGen EntityB.name (fun nm => ⟨nm, none⟩)
    callerName calleeName relationshipType g.entityNodes g.rels
  { g with entityNodes := r.1, rels := r.2 }

end NeoMerge

/-!  ## The batch driver (`handleProceedClick`)

Parsing itself is the external Babel library, so a selected file is
modelled together with its parse outcome: the AST, or the message of the
`SyntaxError` the parser throws. -/

/-- The outcome of `parse(code, {sourceType: "module", ...})` for one
file. -/
inductive ParseOutcome where
  | parsed (ast : JsNode)
  | failed (message : String)

/-- The `for (const file of selectedFiles)` loop of `handleProceedClick`:
each file's result is appended; a parse failure throws out of the loop
(there is no per-file try/catch). -/
def runParseLoop : List (String × ParseOutcome) → List ParserResult →
    Except String (List ParserResult)
  | [], acc => .ok acc
  | (fp, .parsed ast) :: rest, acc => runParseLoop rest (acc ++ [parseJsOrTsFile ast fp])
  | (_, .failed msg) :: _, _ => .error msg

/-- The component state `handleProceedClick` leaves behind for the parse
phase: the `parserResults` state (initially `[]`) and the `error`
state. -/
structure BatchUiState where
  parserResults : List ParserResult
  error : Option String
deriving Repr

/-- `handleProceedClick`: the whole parse loop runs inside one
`try { ... } catch (err) { setError(String(err)) }`; only if every file
parses does `setParserResults(allParserResults)` run. -/
def handleProceedClick (files : List (String × ParseOutcome)) : BatchUiState :=
  match runParseLoop files [] with
  | .ok results => ⟨results, none⟩
  | .error msg => ⟨[], some msg⟩

/-- The message of the first file in the batch that fails to parse. -/
def firstParseError : List (String × ParseOutcome) → Option String
  | [] => none
  | (_, .failed msg) :: _ => some msg
  | (_, .parsed _) :: rest => firstParseError rest

section Lemmas

theorem exitStep_nodes (n : JsNode) (st : TraState) : (exitStep n st).nodes = st.nodes := by
  unfold exitStep popStack
  split <;> rfl

theorem exitStep_relationships (n : JsNode) (st : TraState) :
    (exitStep n st).relationships = st.relationships := by
  unfold exitStep popStack
  split <;> rfl

theorem exitStep_functionStack (n : JsNode) (st : TraState) :
    (exitStep n st).functionStack =
      if scopeIntroducing n then st.functionStack.tail else st.functionStack := by
  unfold exitStep popStack
  split <;> rfl

theorem enterStep_functionStack_scope (anc : List JsNode) (st : TraState) (n : JsNode)
    (h : scopeIntroducing n = true) :
    ∃ nm, (enterStep anc st n).functionStack = nm :: st.functionStack := by
  obtain ⟨k, cs⟩ := n
  cases k <;>
    simp [scopeIntroducing, JsNode.kind] at h <;>
    simp only [enterStep, recordNodeInNeo4j, pushStack] <;>
    first
      | exact ⟨_, rfl⟩
      | (split <;> exact ⟨_, rfl⟩)

theorem enterStep_functionStack_other (anc : List JsNode) (st : TraState) (n : JsNode)
    (h : scopeIntroducing n = false) :
    (enterStep anc st n).functionStack = st.functionStack := by
  obtain ⟨k, cs⟩ := n
  cases k <;>
    simp [scopeIntroducing, JsNode.kind] at h <;>
    simp only [enterStep, recordNodeInNeo4j, recordRelationshipInNeo4j, pushStack] <;>
    first
      | rfl
      | (split <;> rfl)

theorem enterStep_nodes_append (anc : List JsNode) (st : TraState) (n : JsNode) :
    ∃ dn, (enterStep anc st n).nodes = st.nodes ++ dn := by
  obtain ⟨k, cs⟩ := n
  cases k <;>
    simp only [enterStep, recordNodeInNeo4j, recordRelationshipInNeo4j, pushStack] <;>
    first
      | exact ⟨[], (List.append_nil _).symm⟩
      | exact ⟨_, rfl⟩
      | (split <;> first
          | exact ⟨[], (List.append_nil _).symm⟩
          | exact ⟨_, rfl⟩)

theorem enterStep_relationships_append (anc : List JsNode) (st : TraState) (n : JsNode) :
    ∃ dr, (enterStep anc st n).relationships = st.relationships ++ dr := by
  obtain ⟨k, cs⟩ := n
  cases k <;>
    simp only [enterStep, recordNodeInNeo4j, recordRelationshipInNeo4j, pushStack] <;>
    first
      | exact ⟨[], (List.append_nil _).symm⟩
      | exact ⟨_, rfl⟩
      | (split <;> first
          | exact ⟨[], (List.append_nil _).symm⟩
          | exact ⟨_, rfl⟩)

end Lemmas

theorem visit_shape_fuel : ∀ fuel : Nat,
    (∀ n : JsNode, sizeOf n ≤ fuel → ∀ anc st,
      (visit anc st n).functionStack = st.functionStack ∧
      (∃ dn, (visit anc st n).nodes = st.nodes ++ dn) ∧
      (∃ dr, (visit anc st n).relationships = st.relationships ++ dr)) ∧
    (∀ l : List JsNode, sizeOf l ≤ fuel → ∀ anc st,
      (visitList anc st l).functionStack = st.functionStack ∧
      (∃ dn, (visitList anc st l).nodes = st.nodes ++ dn) ∧
      (∃ dr, (visitList anc st l).relationships = st.relationships ++ dr)) := by
  intro fuel
  induction fuel with
  | zero =>
      constructor
      · intro n hn
        exfalso
        obtain ⟨k, cs⟩ := n
        simp only [JsNode.mk.sizeOf_spec] at hn
        omega
      · intro l hl
        exfalso
        cases l with
        | nil =>
            simp only [List.nil.sizeOf_spec] at hl
            omega
        | cons c cs =>
            simp only [List.cons.sizeOf_spec] at hl
            omega
  | succ fuel ih =>
      constructor
      · intro n hn anc st
        obtain ⟨k, cs⟩ := n
        have hcs : sizeOf cs ≤ fuel := by
          simp only [JsNode.mk.sizeOf_spec] at hn
          omega
        rw [visit]
        have hl := (ih.2) cs hcs (.mk k cs :: anc) (enterStep anc st (.mk k cs))
        refine ⟨?_, ?_, ?_⟩
        · rw [exitStep_functionStack]
          by_cases hsc : scopeIntroducing (.mk k cs) = true
          · obtain ⟨nm, hnm⟩ := enterStep_functionStack_scope anc st _ hsc
            rw [hsc, if_pos rfl]
            rw [hl.1, hnm]
            rfl
          · have hsc' : scopeIntroducing (.mk k cs) = false := by
              revert hsc; cases scopeIntroducing (.mk k cs) <;> simp
            rw [hsc', if_neg (by simp)]
            rw [hl.1, enterStep_functionStack_other anc st _ hsc']
        · obtain ⟨dn0, h0⟩ := enterStep_nodes_append anc st (.mk k cs)
          obtain ⟨dn1, h1⟩ := hl.2.1
          exact ⟨dn0 ++ dn1, by rw [exitStep_nodes, h1, h0, List.append_assoc]⟩
        · obtain ⟨dr0, h0⟩ := enterStep_relationships_append anc st (.mk k cs)
          obtain ⟨dr1, h1⟩ := hl.2.2
          exact ⟨dr0 ++ dr1, by rw [exitStep_relationships, h1, h0, List.append_assoc]⟩
      · intro l hl anc st
        match l with
        | [] =>
            rw [visitList]
            exact ⟨rfl, ⟨[], (List.append_nil _).symm⟩, ⟨[], (List.append_nil _).symm⟩⟩
        | c :: cs =>
            have hc : sizeOf c ≤ fuel := by
              simp only [List.cons.sizeOf_spec] at hl
              omega
            have hcs : sizeOf cs ≤ fuel := by
              simp only [List.cons.sizeOf_spec] at hl
              omega
            rw [visitList]
            have h1 := ih.1 c hc anc st
            have h2 := ih.2 cs hcs anc (visit anc st c)
            refine ⟨?_, ?_, ?_⟩
            · rw [h2.1, h1.1]
            · obtain ⟨dn0, e0⟩ := h1.2.1
              obtain ⟨dn1, e1⟩ := h2.2.1
              exact ⟨dn0 ++ dn1, by rw [e1, e0, List.append_assoc]⟩
            · obtain ⟨dr0, e0⟩ := h1.2.2
              obtain ⟨dr1, e1⟩ := h2.2.2
              exact ⟨dr0 ++ dr1, by rw [e1, e0, List.append_assoc]⟩

theorem visit_functionStack (n : JsNode) (anc : List JsNode) (st : TraState) :
    (visit anc st n).functionStack = st.functionStack :=
  ((visit_shape_fuel (sizeOf n)).1 n le_rfl anc st).1

theorem visitList_functionStack (l : List JsNode) (anc : List JsNode) (st : TraState) :
    (visitList anc st l).functionStack = st.functionStack :=
  ((visit_shape_fuel (sizeOf l)).2 l le_rfl anc st).1

theorem visit_nodes_append (n : JsNode) (anc : List JsNode) (st : TraState) :
    ∃ dn, (visit anc st n).nodes = st.nodes ++ dn :=
  ((visit_shape_fuel (sizeOf n)).1 n le_rfl anc st).2.1

theorem visit_relationships_append (n : JsNode) (anc : List JsNode) (st : TraState) :
    ∃ dr, (visit anc st n).relationships = st.relationships ++ dr :=
  ((visit_shape_fuel (sizeOf n)).1 n le_rfl anc st).2.2

theorem visitList_nodes_append (l : List JsNode) (anc : List JsNode) (st : TraState) :
    ∃ dn, (visitList anc st l).nodes = st.nodes ++ dn :=
  ((visit_shape_fuel (sizeOf l)).2 l le_rfl anc st).2.1

theorem visitList_relationships_append (l : List JsNode) (anc : List JsNode) (st : TraState) :
    ∃ dr, (visitList anc st l).relationships = st.relationships ++ dr :=
  ((visit_shape_fuel (sizeOf l)).2 l le_rfl anc st).2.2

theorem enterStep_counts (anc : List JsNode) (st : TraState) (n : JsNode)
    (hst : st.functionStack ≠ []) :
    countFR (enterStep anc st n).nodes =
      countFR st.nodes + (if n.kind = .callExpression then 1 else 0) ∧
    (enterStep anc st n).relationships.length =
      st.relationships.length + (if n.kind = .callExpression then 1 else 0) ∧
    ∀ r ∈ (enterStep anc st n).relationships,
      r ∈ st.relationships ∨ r.relationshipType = "CALLS" := by
  obtain ⟨stack, nds, rls⟩ := st
  obtain ⟨k, cs⟩ := n
  cases k <;>
  first
  | -- the call-expression handler: the stack is non-empty by hypothesis
    (cases stack with
     | nil => exact absurd rfl hst
     | cons caller rest =>
         refine ⟨?_, ?_, ?_⟩
         · simp [enterStep, recordNodeInNeo4j, recordRelationshipInNeo4j, JsNode.kind,
             countFR, List.countP_append]
         · simp [enterStep, recordNodeInNeo4j, recordRelationshipInNeo4j, JsNode.kind]
         · intro r hr
           simp only [enterStep, recordNodeInNeo4j, recordRelationshipInNeo4j,
             List.mem_append, List.mem_singleton] at hr
           rcases hr with h | h
           · exact Or.inl h
           · exact Or.inr (by rw [h])
    )
  | -- every other kind appends no relationship and no FunctionReference record
    (refine ⟨?_, ?_, ?_⟩
     · simp [enterStep, recordNodeInNeo4j, pushStack, JsNode.kind, countFR,
         List.countP_append, List.countP_cons]
       all_goals repeat' split
       all_goals simp [List.countP_append, List.countP_cons]
     · simp [enterStep, recordNodeInNeo4j, pushStack, JsNode.kind]
       all_goals repeat' split
       all_goals simp
     · intro r hr
       revert hr
       simp only [enterStep, recordNodeInNeo4j, pushStack]
       repeat' split
       all_goals (intro hr; exact Or.inl hr)
    )

theorem enterStep_functionStack_ne_nil (anc : List JsNode) (st : TraState) (n : JsNode)
    (hst : st.functionStack ≠ []) : (enterStep anc st n).functionStack ≠ [] := by
  by_cases h : scopeIntroducing n = true
  · obtain ⟨nm, hnm⟩ := enterStep_functionStack_scope anc st n h
    rw [hnm]
    exact List.cons_ne_nil _ _
  · have h' : scopeIntroducing n = false := by
      revert h; cases scopeIntroducing n <;> simp
    rw [enterStep_functionStack_other anc st n h']
    exact hst

theorem visit_counts_fuel : ∀ fuel : Nat,
    (∀ n : JsNode, sizeOf n ≤ fuel → ∀ anc st, st.functionStack ≠ [] →
      countFR (visit anc st n).nodes = countFR st.nodes + countCalls n ∧
      (visit anc st n).relationships.length = st.relationships.length + countCalls n ∧
      ∀ r ∈ (visit anc st n).relationships,
        r ∈ st.relationships ∨ r.relationshipType = "CALLS") ∧
    (∀ l : List JsNode, sizeOf l ≤ fuel → ∀ anc st, st.functionStack ≠ [] →
      countFR (visitList anc st l).nodes = countFR st.nodes + countCallsList l ∧
      (visitList anc st l).relationships.length = st.relationships.length + countCallsList l ∧
      ∀ r ∈ (visitList anc st l).relationships,
        r ∈ st.relationships ∨ r.relationshipType = "CALLS") := by
  intro fuel
  induction fuel with
  | zero =>
      constructor
      · intro n hn
        exfalso
        obtain ⟨k, cs⟩ := n
        simp only [JsNode.mk.sizeOf_spec] at hn
        omega
      · intro l hl
        exfalso
        cases l with
        | nil =>
            simp only [List.nil.sizeOf_spec] at hl
            omega
        | cons c cs =>
            simp only [List.cons.sizeOf_spec] at hl
            omega
  | succ fuel ih =>
      constructor
      · intro n hn anc st hst
        obtain ⟨k, cs⟩ := n
        have hcs : sizeOf cs ≤ fuel := by
          simp only [JsNode.mk.sizeOf_spec] at hn
          omega
        rw [visit]
        have hst1 := enterStep_functionStack_ne_nil anc st (.mk k cs) hst
        have he := enterStep_counts anc st (.mk k cs) hst
        have hl := (ih.2) cs hcs (.mk k cs :: anc) (enterStep anc st (.mk k cs)) hst1
        refine ⟨?_, ?_, ?_⟩
        · rw [exitStep_nodes, hl.1, he.1, countCalls, JsNode.kind]
          omega
        · rw [exitStep_relationships, hl.2.1, he.2.1, countCalls, JsNode.kind]
          omega
        · intro r hr
          rw [exitStep_relationships] at hr
          rcases hl.2.2 r hr with h | h
          · exact he.2.2 r h
          · exact Or.inr h
      · intro l hl anc st hst
        match l with
        | [] =>
            rw [visitList, countCallsList]
            exact ⟨by omega, by omega, fun r hr => Or.inl hr⟩
        | c :: cs =>
            have hc : sizeOf c ≤ fuel := by
              simp only [List.cons.sizeOf_spec] at hl
              omega
            have hcs : sizeOf cs ≤ fuel := by
              simp only [List.cons.sizeOf_spec] at hl
              omega
            rw [visitList, countCallsList]
            have h1 := ih.1 c hc anc st hst
            have hst2 : (visit anc st c).functionStack ≠ [] := by
              rw [visit_functionStack]
              exact hst
            have h2 := ih.2 cs hcs anc (visit anc st c) hst2
            refine ⟨?_, ?_, ?_⟩
            · rw [h2.1, h1.1]
              omega
            · rw [h2.2.1, h1.2.1]
              omega
            · intro r hr
              rcases h2.2.2 r hr with h | h
              · rcases h1.2.2 r h with h' | h'
                · exact Or.inl h'
                · exact Or.inr h'
              · exact Or.inr h

theorem visitList_nodes_head_cons (anc : List JsNode) (l : List JsNode)
    (stack : List String) (x : AstRecord) (nds : List AstRecord) (rls : List RelRecord) :
    (visitList anc ⟨stack, x :: nds, rls⟩ l).nodes.head? = some x := by
  obtain ⟨dn, hdn⟩ := visitList_nodes_append l anc ⟨stack, x :: nds, rls⟩
  rw [hdn]
  rfl

theorem visitList_relationships_head_cons (anc : List JsNode) (l : List JsNode)
    (stack : List String) (nds : List AstRecord) (x : RelRecord) (rls : List RelRecord) :
    (visitList anc ⟨stack, nds, x :: rls⟩ l).relationships.head? = some x := by
  obtain ⟨dr, hdr⟩ := visitList_relationships_append l anc ⟨stack, nds, x :: rls⟩
  rw [hdr]
  rfl

/-- C1: for every AST node, the scope stack immediately after the node's
traversal equals the stack immediately before it, and every
scope-introducing node pushes exactly one name on entry and pops exactly
one name (the top) on exit, regardless of the calls or nested scopes in
between. -/
theorem c1_scope_stack_balanced (n : JsNode) (anc : List JsNode) (st : TraState) :
    (visit anc st n).functionStack = st.functionStack ∧
    (scopeIntroducing n = true →
      (∃ nm, (enterStep anc st n).functionStack = nm :: st.functionStack) ∧
      ∀ s : TraState, (exitStep n s).functionStack = s.functionStack.tail) :=
  ⟨visit_functionStack n anc st,
   fun h => ⟨enterStep_functionStack_scope anc st n h,
     fun s => by rw [exitStep_functionStack, if_pos h]⟩⟩

/-- Witness for C1 at a concrete function declaration containing a call. -/
theorem c1_scope_stack_balanced_witness :
    (visit [] ⟨[], [], []⟩ (.mk (.functionDeclaration (some "greet") 0)
        [.mk .callExpression [.mk (.identifier "log") []]])).functionStack = [] ∧
    (∃ nm, (enterStep [] ⟨[], [], []⟩ (.mk (.functionDeclaration (some "greet") 0)
        [.mk .callExpression [.mk (.identifier "log") []]])).functionStack = [nm]) ∧
    (exitStep (.mk (.functionDeclaration (some "greet") 0)
        [.mk .callExpression [.mk (.identifier "log") []]])
        ⟨["greet"], [], []⟩).functionStack = ["greet"].tail := by
  have h := c1_scope_stack_balanced
    (.mk (.functionDeclaration (some "greet") 0)
      [.mk .callExpression [.mk (.identifier "log") []]]) [] ⟨[], [], []⟩
  exact ⟨h.1, (h.2 rfl).1, (h.2 rfl).2 ⟨["greet"], [], []⟩⟩

/-- C2: a file's traversal emits exactly one `FunctionReference` entity
record and exactly one relationship record per call-expression node of
its AST, every relationship has kind `CALLS`, and this includes calls at
the top level of the file (whose caller is the `GLOBAL` sentinel the
module root pushes). -/
theorem c2_one_reference_per_call (stmts : List JsNode) :
    countFR (runTraversal (.mk .program stmts)).nodes =
      countCalls (.mk .program stmts) ∧
    (runTraversal (.mk .program stmts)).relationships.length =
      countCalls (.mk .program stmts) ∧
    (runTraversal (.mk .program stmts)).relationships.all
      (fun r => r.relationshipType == "CALLS") = true := by
  have base := (visit_counts_fuel (sizeOf stmts)).2 stmts le_rfl
    [JsNode.mk .program stmts] ⟨["GLOBAL"], [], []⟩ (by simp)
  rw [runTraversal, visit]
  have hcc : countCalls (.mk .program stmts) = countCallsList stmts := by
    rw [countCalls]
    simp
  refine ⟨?_, ?_, ?_⟩
  · rw [exitStep_nodes, hcc]
    have : countFR (⟨["GLOBAL"], [], []⟩ : TraState).nodes = 0 := rfl
    simpa [enterStep, pushStack, this] using base.1
  · rw [exitStep_relationships, hcc]
    simpa [enterStep, pushStack] using base.2.1
  · rw [List.all_eq_true]
    intro r hr
    rw [exitStep_relationships] at hr
    have hr' : r ∈ (visitList [JsNode.mk .program stmts] ⟨["GLOBAL"], [], []⟩ stmts).relationships := by
      simpa [enterStep, pushStack] using hr
    rcases base.2.2 r hr' with h | h
    · simp at h
    · simpa using h

/-- C7: for `class A { #secret(){ helper(); } }` the engine emits a
`ClassPrivateMethod` entity named `A.#secret` (the enclosing name found
on the ancestor chain) and a `CALLS` relationship `A.#secret → helper`. -/
theorem c7_private_method_naming :
    (runTraversal (.mk .program [.mk (.classDeclaration (some "A") 0)
        [.mk (.classPrivateMethod (some "secret"))
          [.mk .callExpression [.mk (.identifier "helper") []]]]])).nodes =
      [⟨"A", .classDeclaration⟩, ⟨"A.#secret", .classPrivateMethod⟩,
        ⟨"helper", .functionReference⟩] ∧
    (runTraversal (.mk .program [.mk (.classDeclaration (some "A") 0)
        [.mk (.classPrivateMethod (some "secret"))
          [.mk .callExpression [.mk (.identifier "helper") []]]]])).relationships =
      [⟨"A.#secret", "helper", "CALLS"⟩] := by
  decide

/-- C8: for `const obj = { foo() { bar(); } };` the engine emits an
`ObjectMethod` entity named `obj.foo` (the enclosing name found at the
variable declarator on the ancestor chain) and a `CALLS` relationship
`obj.foo → bar`. -/
theorem c8_object_method_naming :
    (runTraversal (.mk .program [.mk .otherNode [.mk (.variableDeclarator (some "obj"))
        [.mk .objectExpression [.mk (.objectMethod (.ident "foo"))
          [.mk .callExpression [.mk (.identifier "bar") []]]]]]])).nodes =
      [⟨"obj.foo", .objectMethod⟩, ⟨"bar", .functionReference⟩] ∧
    (runTraversal (.mk .program [.mk .otherNode [.mk (.variableDeclarator (some "obj"))
        [.mk .objectExpression [.mk (.objectMethod (.ident "foo"))
          [.mk .callExpression [.mk (.identifier "bar") []]]]]]])).relationships =
      [⟨"obj.foo", "bar", "CALLS"⟩] := by
  decide

/-- C9: for `(function(){ doThing(); })();` (the anonymous function's
source start offset is 1) the engine emits an `AnonymousFunction` entity
named `anonymous_1` and a `CALLS` relationship `anonymous_1 → doThing`. -/
theorem c9_iife_anonymous_naming :
    (runTraversal (.mk .program [.mk .otherNode [.mk .callExpression
        [.mk (.functionExpression 1)
          [.mk .callExpression [.mk (.identifier "doThing") []]]]]])).nodes =
      [⟨"anonymous_call", .functionReference⟩, ⟨"anonymous_1", .anonymousFunction⟩,
        ⟨"doThing", .functionReference⟩] ∧
    (runTraversal (.mk .program [.mk .otherNode [.mk .callExpression
        [.mk (.functionExpression 1)
          [.mk .callExpression [.mk (.identifier "doThing") []]]]]])).relationships =
      [⟨"GLOBAL", "anonymous_call", "CALLS"⟩, ⟨"anonymous_1", "doThing", "CALLS"⟩] := by
  decide

/-- C3 counterexample: for `obj[key]()` — a call whose callee is a
computed member access — the engine emits the callee name `obj.key`
(the member-expression branch fires, ignoring the `computed` flag), not
the literal `anonymous_call` the claim requires. -/
theorem c3_counterexample :
    (runTraversal (.mk .program [.mk .otherNode [.mk .callExpression
        [.mk (.memberExpression true)
          [.mk (.identifier "obj") [], .mk (.identifier "key") []]]]])).nodes =
      [⟨"obj.key", .functionReference⟩] ∧
    (runTraversal (.mk .program [.mk .otherNode [.mk .callExpression
        [.mk (.memberExpression true)
          [.mk (.identifier "obj") [], .mk (.identifier "key") []]]]])).relationships =
      [⟨"GLOBAL", "obj.key", "CALLS"⟩] ∧
    ¬("obj.key" = "anonymous_call") := by
  decide

/-- C3 amended: a top-level call whose callee is a computed member access
resolves through the member-expression branch: the emitted
`FunctionReference` entity and `CALLS` relationship carry the name
`<object>.<property>`, substituting `unknownObj`/`unknownProp` for any
side that is not a simple identifier; `anonymous_call` is reserved for
callee shapes that are neither identifiers nor member expressions. -/
theorem memberObjPart_spec (o : JsNode) (rest : List JsNode) :
    memberObjPart (o :: rest) =
      (match o with | .mk (.identifier nm) _ => nm | _ => "unknownObj") := by
  obtain ⟨k, cs⟩ := o
  cases k <;> rfl

theorem memberPropPart_spec (x o : JsNode) (rest : List JsNode) :
    memberPropPart (x :: o :: rest) =
      (match o with | .mk (.identifier nm) _ => nm | _ => "unknownProp") := by
  obtain ⟨k, cs⟩ := o
  cases k <;> rfl

theorem c3_amended_computed_callee (o p : JsNode) (args : List JsNode) :
    (runTraversal (.mk .program [.mk .otherNode [.mk .callExpression
        (.mk (.memberExpression true) [o, p] :: args)]])).nodes.head? =
      some ⟨(match o with | .mk (.identifier nm) _ => nm | _ => "unknownObj") ++ "." ++
        (match p with | .mk (.identifier nm) _ => nm | _ => "unknownProp"),
        .functionReference⟩ ∧
    (runTraversal (.mk .program [.mk .otherNode [.mk .callExpression
        (.mk (.memberExpression true) [o, p] :: args)]])).relationships.head? =
      some ⟨"GLOBAL",
        (match o with | .mk (.identifier nm) _ => nm | _ => "unknownObj") ++ "." ++
        (match p with | .mk (.identifier nm) _ => nm | _ => "unknownProp"),
        "CALLS"⟩ := by
  rw [runTraversal, visit, visitList, visitList, visit, visitList, visitList, visit]
  simp only [enterStep, pushStack, recordNodeInNeo4j, recordRelationshipInNeo4j,
    calleeNameOf, List.nil_append]
  rw [exitStep_nodes, exitStep_nodes, exitStep_nodes,
    exitStep_relationships, exitStep_relationships, exitStep_relationships]
  rw [memberObjPart_spec, memberPropPart_spec]
  rw [visitList_nodes_head_cons, visitList_relationships_head_cons]
  exact ⟨rfl, rfl⟩

/-- C10: a class or object-literal method whose key is a string or
numeric literal is named `<enclosingName>.<stringified key value>`
(an identifier key is used verbatim); a key of any other non-identifier
shape yields the placeholder member name `unknownMethod` for class
methods and `unknownObjMethod` for object methods. -/
theorem c10_literal_method_keys (cnm onm : String) (k : MKey) :
    (runTraversal (.mk .program [.mk (.classDeclaration (some cnm) 0)
        [.mk (.classMethod k) []]])).nodes =
      [⟨cnm, .classDeclaration⟩,
        ⟨cnm ++ "." ++ (match k with
          | .ident nm => nm
          | .strLit v => v
          | .numLit v => toString v
          | .other => "unknownMethod"), .classMethod⟩] ∧
    (runTraversal (.mk .program [.mk .otherNode [.mk (.variableDeclarator (some onm))
        [.mk .objectExpression [.mk (.objectMethod k) []]]]])).nodes =
      [⟨onm ++ "." ++ (match k with
          | .ident nm => nm
          | .strLit v => v
          | .numLit v => toString v
          | .other => "unknownObjMethod"), .objectMethod⟩] := by
  cases k <;> exact ⟨rfl, rfl⟩

theorem insertIfAbsent_of_mem {α : Type} [DecidableEq α] {a : α} {l : List α} (h : a ∈ l) :
    insertIfAbsent a l = l := by
  unfold insertIfAbsent
  exact if_pos h

theorem mem_insertIfAbsent_self {α : Type} [DecidableEq α] (a : α) (l : List α) :
    a ∈ insertIfAbsent a l := by
  unfold insertIfAbsent
  split
  · assumption
  · simp

theorem mem_insertIfAbsent_of_mem {α : Type} [DecidableEq α] {b : α} {l : List α} (a : α)
    (h : b ∈ l) : b ∈ insertIfAbsent a l := by
  unfold insertIfAbsent
  split
  · exact h
  · exact List.mem_append_left _ h

theorem mem_foldl_insert {α : Type} [DecidableEq α] (ps : List α) {l : List α} {b : α}
    (h : b ∈ l) : b ∈ ps.foldl (fun rs r => insertIfAbsent r rs) l := by
  induction ps generalizing l with
  | nil => exact h
  | cons p ps ih => exact ih (mem_insertIfAbsent_of_mem p h)

theorem mem_foldl_insert_self {α : Type} [DecidableEq α] (ps : List α) (l : List α) {p : α}
    (h : p ∈ ps) : p ∈ ps.foldl (fun rs r => insertIfAbsent r rs) l := by
  induction ps generalizing l with
  | nil => cases h
  | cons q ps ih =>
      rcases List.mem_cons.mp h with h' | h'
      · subst h'
        exact mem_foldl_insert ps (mem_insertIfAbsent_self p l)
      · exact ih _ h'

theorem foldl_insert_of_all_mem {α : Type} [DecidableEq α] (ps : List α) (l : List α)
    (h : ∀ p ∈ ps, p ∈ l) : ps.foldl (fun rs r => insertIfAbsent r rs) l = l := by
  induction ps with
  | nil => rfl
  | cons p ps ih =>
      have hp : insertIfAbsent p l = l := insertIfAbsent_of_mem (h p (List.mem_cons_self p ps))
      calc (p :: ps).foldl (fun rs r => insertIfAbsent r rs) l
          = ps.foldl (fun rs r => insertIfAbsent r rs) (insertIfAbsent p l) := rfl
        _ = ps.foldl (fun rs r => insertIfAbsent r rs) l := by rw [hp]
        _ = l := ih (fun q hq => h q (List.mem_cons_of_mem p hq))

theorem mergeNodesByName_bound_ne_nil {ν : Type} [DecidableEq ν] (nameOf : ν → String)
    (mkBare : String → ν) (nm : String) (nodes : List ν) :
    (mergeNodesByName nameOf mkBare nm nodes).2 ≠ [] := by
  unfold mergeNodesByName
  split
  · exact List.cons_ne_nil _ _
  · assumption

theorem mergeNodesByName_filter {ν : Type} [DecidableEq ν] (nameOf : ν → String)
    (mkBare : String → ν) (hname : ∀ s, nameOf (mkBare s) = s) (nm : String) (nodes : List ν) :
    ((mergeNodesByName nameOf mkBare nm nodes).1).filter (fun nd => nameOf nd == nm) =
      (mergeNodesByName nameOf mkBare nm nodes).2 := by
  unfold mergeNodesByName
  split
  · next h =>
      simp only [List.filter_append, h, List.nil_append]
      rw [List.filter_cons]
      simp [hname]
  · rfl

theorem mergeNodesByName_filter_other {ν : Type} [DecidableEq ν] (nameOf : ν → String)
    (mkBare : String → ν) (hname : ∀ s, nameOf (mkBare s) = s) {nm nm' : String}
    (hne : nm' ≠ nm) (nodes : List ν) :
    ((mergeNodesByName nameOf mkBare nm nodes).1).filter (fun nd => nameOf nd == nm') =
      nodes.filter (fun nd => nameOf nd == nm') := by
  unfold mergeNodesByName
  split
  · simp only [List.filter_append]
    rw [List.filter_cons]
    simp [hname, hne.symm]
  · rfl

theorem mergeNodesByName_of_filter_ne {ν : Type} [DecidableEq ν] (nameOf : ν → String)
    (mkBare : String → ν) {nm : String} {nodes : List ν}
    (h : nodes.filter (fun nd => nameOf nd == nm) ≠ []) :
    mergeNodesByName nameOf mkBare nm nodes =
      (nodes, nodes.filter (fun nd => nameOf nd == nm)) := by
  unfold mergeNodesByName
  rw [if_neg h]

theorem mergeRelGen_idem {ν : Type} [DecidableEq ν] (nameOf : ν → String)
    (mkBare : String → ν) (hname : ∀ s, nameOf (mkBare s) = s)
    (c e rt : String) (nodes : List ν) (rels : List (ν × String × ν)) :
    mergeRelGen nameOf mkBare c e rt
      (mergeRelGen nameOf mkBare c e rt nodes rels).1
      (mergeRelGen nameOf mkBare c e rt nodes rels).2 =
    mergeRelGen nameOf mkBare c e rt nodes rels := by
  have hrcfil := mergeNodesByName_filter nameOf mkBare hname c nodes
  have hrc2 := mergeNodesByName_bound_ne_nil nameOf mkBare c nodes
  have hrefil := mergeNodesByName_filter nameOf mkBare hname e
    (mergeNodesByName nameOf mkBare c nodes).1
  have hre2 := mergeNodesByName_bound_ne_nil nameOf mkBare e
    (mergeNodesByName nameOf mkBare c nodes).1
  have hF1 : ((mergeNodesByName nameOf mkBare e
      (mergeNodesByName nameOf mkBare c nodes).1).1).filter (fun nd => nameOf nd == c) =
      (mergeNodesByName nameOf mkBare c nodes).2 := by
    by_cases hce : c = e
    · subst hce
      have hne : ((mergeNodesByName nameOf mkBare c nodes).1).filter
          (fun nd => nameOf nd == c) ≠ [] := by
        rw [hrcfil]
        exact hrc2
      rw [mergeNodesByName_of_filter_ne nameOf mkBare hne]
      exact hrcfil
    · rw [mergeNodesByName_filter_other nameOf mkBare hname hce
        (mergeNodesByName nameOf mkBare c nodes).1]
      exact hrcfil
  have hfilc_ne : ((mergeNodesByName nameOf mkBare e
      (mergeNodesByName nameOf mkBare c nodes).1).1).filter (fun nd => nameOf nd == c) ≠ [] := by
    rw [hF1]
    exact hrc2
  have hfile_ne : ((mergeNodesByName nameOf mkBare e
      (mergeNodesByName nameOf mkBare c nodes).1).1).filter (fun nd => nameOf nd == e) ≠ [] := by
    rw [hrefil]
    exact hre2
  have hrc' : mergeNodesByName nameOf mkBare c
      (mergeNodesByName nameOf mkBare e (mergeNodesByName nameOf mkBare c nodes).1).1 =
      ((mergeNodesByName nameOf mkBare e (mergeNodesByName nameOf mkBare c nodes).1).1,
        (mergeNodesByName nameOf mkBare c nodes).2) := by
    rw [mergeNodesByName_of_filter_ne nameOf mkBare hfilc_ne, hF1]
  have hre' : mergeNodesByName nameOf mkBare e
      (mergeNodesByName nameOf mkBare e (mergeNodesByName nameOf mkBare c nodes).1).1 =
      ((mergeNodesByName nameOf mkBare e (mergeNodesByName nameOf mkBare c nodes).1).1,
        (mergeNodesByName nameOf mkBare e (mergeNodesByName nameOf mkBare c nodes).1).2) := by
    rw [mergeNodesByName_of_filter_ne nameOf mkBare hfile_ne, hrefil]
  simp only [mergeRelGen]
  rw [hrc']
  simp only []
  rw [hre']
  simp only []
  refine Prod.ext rfl ?_
  simp only []
  exact foldl_insert_of_all_mem _ _ (fun p hp => mem_foldl_insert_self _ _ hp)

theorem insertIfAbsent_idem {α : Type} [DecidableEq α] (a : α) (l : List α) :
    insertIfAbsent a (insertIfAbsent a l) = insertIfAbsent a l :=
  insertIfAbsent_of_mem (mem_insertIfAbsent_self a l)

/-- C5 counterexample: the `CREATE`-based sink
(`createAstNodeInNeo4j` in `packages/ui/src/lib/neo4jConnection.ts`)
stores a second `AstNode` when the identical entity record is written
twice: two stored nodes, not one. -/
theorem c5_counterexample :
    (NeoCreate.createAstNodeInNeo4j "f.ts" "foo" "FunctionDeclaration"
      (NeoCreate.createAstNodeInNeo4j "f.ts" "foo" "FunctionDeclaration"
        ⟨[], []⟩)).astNodes.length = 2 ∧
    ¬((NeoCreate.createAstNodeInNeo4j "f.ts" "foo" "FunctionDeclaration"
      (NeoCreate.createAstNodeInNeo4j "f.ts" "foo" "FunctionDeclaration"
        ⟨[], []⟩)).astNodes.length = 1) := by
  decide

/-- C5 amended: the `MERGE`-based sink revision is idempotent for both
entity and relationship upserts, and even the `CREATE`-based sink's
relationship upsert is idempotent; only the `CREATE`-based entity write
duplicates nodes on repeated identical calls. -/
theorem c5_amended_idempotent_upserts :
    (∀ fp nm ty (g : GraphB),
      NeoMerge.createAstNodeInNeo4j fp nm ty (NeoMerge.createAstNodeInNeo4j fp nm ty g) =
        NeoMerge.createAstNodeInNeo4j fp nm ty g) ∧
    (∀ cnm enm rt (g : GraphB),
      NeoMerge.createAstRelationshipInNeo4j cnm enm rt
          (NeoMerge.createAstRelationshipInNeo4j cnm enm rt g) =
        NeoMerge.createAstRelationshipInNeo4j cnm enm rt g) ∧
    (∀ cnm enm rt (g : GraphA),
      NeoCreate.createAstRelationshipInNeo4j cnm enm rt
          (NeoCreate.createAstRelationshipInNeo4j cnm enm rt g) =
        NeoCreate.createAstRelationshipInNeo4j cnm enm rt g) := by
  refine ⟨?_, ?_, ?_⟩
  · intro fp nm ty g
    obtain ⟨f, en, cr, r⟩ := g
    simp [NeoMerge.createAstNodeInNeo4j, insertIfAbsent_idem]
  · intro cnm enm rt g
    obtain ⟨f, en, cr, r⟩ := g
    have h := mergeRelGen_idem EntityB.name (fun nm => ⟨nm, none⟩) (fun _ => rfl)
      cnm enm rt en r
    simp only [NeoMerge.createAstRelationshipInNeo4j]
    rw [h]
  · intro cnm enm rt g
    obtain ⟨nds, r⟩ := g
    have h := mergeRelGen_idem AstNodeA.name (fun nm => ⟨none, nm, none⟩) (fun _ => rfl)
      cnm enm rt nds r
    simp only [NeoCreate.createAstRelationshipInNeo4j]
    rw [h]

theorem runParseLoop_error (files : List (String × ParseOutcome)) (acc : List ParserResult)
    (msg : String) (h : firstParseError files = some msg) :
    runParseLoop files acc = .error msg := by
  induction files generalizing acc with
  | nil => simp [firstParseError] at h
  | cons f rest ih =>
      obtain ⟨fp, po⟩ := f
      cases po with
      | parsed ast =>
          rw [firstParseError] at h
          rw [runParseLoop]
          exact ih _ h
      | failed m =>
          rw [firstParseError] at h
          rw [runParseLoop]
          injection h with h'
          rw [h']

theorem runParseLoop_ok (files : List (String × ParseOutcome)) (acc : List ParserResult)
    (h : firstParseError files = none) :
    ∃ results, runParseLoop files acc = .ok results ∧
      results.length = acc.length + files.length := by
  induction files generalizing acc with
  | nil => exact ⟨acc, rfl, by simp⟩
  | cons f rest ih =>
      obtain ⟨fp, po⟩ := f
      cases po with
      | parsed ast =>
          rw [firstParseError] at h
          obtain ⟨results, h1, h2⟩ := ih (acc ++ [parseJsOrTsFile ast fp]) h
          rw [runParseLoop]
          refine ⟨results, h1, ?_⟩
          rw [h2]
          simp
          omega
      | failed m =>
          rw [firstParseError] at h
          cases h

/-- C4 amended: a single parse failure aborts the whole batch — the
first failing file's message is reported, and the parser-results state
stays empty (zero results) — while a batch with no parse failure yields
one result per file. -/
theorem c4_amended_batch_abort (files : List (String × ParseOutcome)) :
    (∀ msg, firstParseError files = some msg →
      (handleProceedClick files).parserResults = [] ∧
      (handleProceedClick files).error = some msg) ∧
    (firstParseError files = none →
      (handleProceedClick files).error = none ∧
      (handleProceedClick files).parserResults.length = files.length) := by
  constructor
  · intro msg h
    rw [handleProceedClick, runParseLoop_error files [] msg h]
    exact ⟨rfl, rfl⟩
  · intro h
    obtain ⟨results, h1, h2⟩ := runParseLoop_ok files [] h
    rw [handleProceedClick, h1]
    simp at h2
    exact ⟨rfl, h2⟩

/-- Witness for C4's amended claim: one failing batch and one clean
batch. -/
theorem c4_amended_batch_abort_witness :
    ((handleProceedClick [("a.ts", .failed "boom")]).parserResults = [] ∧
      (handleProceedClick [("a.ts", .failed "boom")]).error = some "boom") ∧
    ((handleProceedClick [("b.ts", .parsed (.mk .program []))]).error = none ∧
      (handleProceedClick [("b.ts", .parsed (.mk .program []))]).parserResults.length = 1) :=
  ⟨(c4_amended_batch_abort [("a.ts", .failed "boom")]).1 "boom" rfl,
    (c4_amended_batch_abort [("b.ts", .parsed (.mk .program []))]).2 rfl⟩

/-- C4 counterexample: a batch of five files whose third file fails to
parse yields zero parser results — not four — and only the error report:
the whole loop sits inside a single try/catch, so one `SyntaxError`
discards every file's results. -/
theorem c4_counterexample :
    (handleProceedClick [
      ("a.ts", .parsed (.mk .program [])),
      ("b.ts", .parsed (.mk .program [])),
      ("c.ts", .failed "SyntaxError: Unexpected token (1:5)"),
      ("d.ts", .parsed (.mk .program [])),
      ("e.ts", .parsed (.mk .program []))]).parserResults.length = 0 ∧
    ¬((handleProceedClick [
      ("a.ts", .parsed (.mk .program [])),
      ("b.ts", .parsed (.mk .program [])),
      ("c.ts", .failed "SyntaxError: Unexpected token (1:5)"),
      ("d.ts", .parsed (.mk .program [])),
      ("e.ts", .parsed (.mk .program []))]).parserResults.length = 4) ∧
    (handleProceedClick [
      ("a.ts", .parsed (.mk .program [])),
      ("b.ts", .parsed (.mk .program [])),
      ("c.ts", .failed "SyntaxError: Unexpected token (1:5)"),
      ("d.ts", .parsed (.mk .program [])),
      ("e.ts", .parsed (.mk .program []))]).error =
        some "SyntaxError: Unexpected token (1:5)" := by
  refine ⟨rfl, by decide, rfl⟩

theorem str_eq_empty_of_length (s : String) (h : s.length = 0) : s = "" := by
  cases s with
  | mk data =>
      cases data with
      | nil => rfl
      | cons c cs => simp [String.length] at h

theorem str_append_ne_empty_left {a : String} (b : String) (h : a ≠ "") : a ++ b ≠ "" := by
  intro he
  apply h
  have hl : a.length + b.length = 0 := by
    rw [← String.length_append, he]
    rfl
  exact str_eq_empty_of_length a (by omega)

theorem str_append_ne_empty_right (a : String) {b : String} (h : b ≠ "") : a ++ b ≠ "" := by
  intro he
  apply h
  have hl : a.length + b.length = 0 := by
    rw [← String.length_append, he]
    rfl
  exact str_eq_empty_of_length b (by omega)

theorem qualified_name_ne_empty (a mid b : String) (hmid : mid ≠ "") : a ++ mid ++ b ≠ "" :=
  str_append_ne_empty_left b (str_append_ne_empty_right a hmid)

theorem getEnclosingClassName_ne_empty (anc : List JsNode) (h : ancWf anc = true) :
    getEnclosingClassName anc ≠ "" := by
  induction anc with
  | nil => decide
  | cons a rest ih =>
      have hwa : wfKind a.kind = true := by
        have := (List.all_eq_true.mp h) a (List.mem_cons_self a rest)
        simpa using this
      have hrest : ancWf rest = true := by
        rw [ancWf, List.all_eq_true]
        intro x hx
        exact (List.all_eq_true.mp h) x (List.mem_cons_of_mem a hx)
      obtain ⟨k, cs⟩ := a
      cases k
      case classDeclaration id start =>
        cases id with
        | none =>
            simp only [getEnclosingClassName]
            exact ih hrest
        | some nm =>
            simp only [getEnclosingClassName]
            simp only [wfKind, JsNode.kind, wfOptName] at hwa
            exact bne_iff_ne.mp hwa
      case classExpression id start =>
        cases id with
        | none =>
            simp only [getEnclosingClassName]
            exact ih hrest
        | some nm =>
            simp only [getEnclosingClassName]
            simp only [wfKind, JsNode.kind, wfOptName] at hwa
            exact bne_iff_ne.mp hwa
      all_goals
        simp only [getEnclosingClassName]
      all_goals
        exact ih hrest

theorem getEnclosingObjectName_ne_empty (anc : List JsNode) (h : ancWf anc = true) :
    getEnclosingObjectName anc ≠ "" := by
  induction anc with
  | nil => decide
  | cons a rest ih =>
      have hwa : wfKind a.kind = true := by
        have := (List.all_eq_true.mp h) a (List.mem_cons_self a rest)
        simpa using this
      have hrest : ancWf rest = true := by
        rw [ancWf, List.all_eq_true]
        intro x hx
        exact (List.all_eq_true.mp h) x (List.mem_cons_of_mem a hx)
      obtain ⟨k, cs⟩ := a
      cases k
      case variableDeclarator id =>
        cases id with
        | none =>
            simp only [getEnclosingObjectName]
            exact ih hrest
        | some nm =>
            simp only [getEnclosingObjectName]
            simp only [wfKind, JsNode.kind, wfOptName] at hwa
            exact bne_iff_ne.mp hwa
      all_goals
        simp only [getEnclosingObjectName]
      all_goals
        exact ih hrest

theorem anon_prefix_ne_empty (s : Nat) : ("anonymous_" ++ toString s) ≠ "" :=
  str_append_ne_empty_left _ (by decide)

theorem getFunctionName_ne_empty (parent : Option JsNode) (n : JsNode)
    (hn : wfKind n.kind = true)
    (hp : ∀ a, parent = some a → wfKind a.kind = true) :
    getFunctionName parent n ≠ "" := by
  obtain ⟨k, cs⟩ := n
  cases k
  case functionDeclaration id start =>
      cases id with
      | some nm =>
          simp only [getFunctionName]
          simp only [wfKind, JsNode.kind, wfOptName] at hn
          exact bne_iff_ne.mp hn
      | none =>
          simp only [getFunctionName]
          exact anon_prefix_ne_empty start
  case functionExpression start =>
      cases parent with
      | none =>
          simp only [getFunctionName]
          exact anon_prefix_ne_empty start
      | some a =>
          obtain ⟨ka, csa⟩ := a
          cases ka
          case variableDeclarator id =>
              cases id with
              | some nm =>
                  simp only [getFunctionName]
                  have := hp _ rfl
                  simp only [wfKind, JsNode.kind, wfOptName] at this
                  exact bne_iff_ne.mp this
              | none =>
                  simp only [getFunctionName]
                  exact anon_prefix_ne_empty start
          all_goals
            simp only [getFunctionName]
          all_goals
            exact anon_prefix_ne_empty start
  case arrowFunctionExpression start =>
      cases parent with
      | none =>
          simp only [getFunctionName]
          exact anon_prefix_ne_empty start
      | some a =>
          obtain ⟨ka, csa⟩ := a
          cases ka
          case variableDeclarator id =>
              cases id with
              | some nm =>
                  simp only [getFunctionName]
                  have := hp _ rfl
                  simp only [wfKind, JsNode.kind, wfOptName] at this
                  exact bne_iff_ne.mp this
              | none =>
                  simp only [getFunctionName]
                  exact anon_prefix_ne_empty start
          all_goals
            simp only [getFunctionName]
          all_goals
            exact anon_prefix_ne_empty start
  all_goals
    simp only [getFunctionName]
  all_goals
    decide

theorem calleeNameOf_ne_empty (c : JsNode) (hc : wfKind c.kind = true) :
    calleeNameOf c ≠ "" := by
  obtain ⟨k, cs⟩ := c
  cases k
  case identifier nm =>
      simp only [calleeNameOf]
      simp only [wfKind, JsNode.kind] at hc
      exact bne_iff_ne.mp hc
  case memberExpression computed =>
      simp only [calleeNameOf]
      exact qualified_name_ne_empty _ "." _ (by decide)
  all_goals
    simp only [calleeNameOf]
  all_goals
    decide

theorem enterStep_names (anc : List JsNode) (st : TraState) (n : JsNode)
    (hk : wfKind n.kind = true) (hcs : wfList n.children = true) (hanc : ancWf anc = true)
    (hst : ∀ r ∈ st.nodes, r.name ≠ "") :
    ∀ r ∈ (enterStep anc st n).nodes, r.name ≠ "" := by
  have hp : ∀ a, anc.head? = some a → wfKind a.kind = true := by
    cases anc with
    | nil => intro a ha; cases ha
    | cons b rest =>
        intro a ha
        have hb : wfKind b.kind = true := by
          have := (List.all_eq_true.mp hanc) b (List.mem_cons_self b rest)
          simpa using this
        simp only [List.head?_cons, Option.some.injEq] at ha
        rw [← ha]
        exact hb
  have hclass := getEnclosingClassName_ne_empty anc hanc
  have hobject := getEnclosingObjectName_ne_empty anc hanc
  obtain ⟨k, cs⟩ := n
  cases k
  case program =>
      simpa [enterStep, pushStack] using hst
  case classDeclaration id start =>
      intro r hr
      simp only [enterStep, recordNodeInNeo4j, pushStack, List.mem_append,
        List.mem_singleton] at hr
      rcases hr with h | h
      · exact hst r h
      · subst h
        cases id with
        | some nm =>
            simp only [wfKind, JsNode.kind, wfOptName] at hk
            exact bne_iff_ne.mp hk
        | none =>
            exact str_append_ne_empty_left _ (by decide)
  case classExpression id start =>
      intro r hr
      simp only [enterStep, recordNodeInNeo4j, pushStack, List.mem_append,
        List.mem_singleton] at hr
      rcases hr with h | h
      · exact hst r h
      · subst h
        cases id with
        | some nm =>
            simp only [wfKind, JsNode.kind, wfOptName] at hk
            exact bne_iff_ne.mp hk
        | none =>
            exact str_append_ne_empty_left _ (by decide)
  case classMethod key =>
      intro r hr
      simp only [enterStep, recordNodeInNeo4j, pushStack, List.mem_append,
        List.mem_singleton] at hr
      rcases hr with h | h
      · exact hst r h
      · subst h
        exact qualified_name_ne_empty _ "." _ (by decide)
  case classPrivateMethod keyId =>
      intro r hr
      simp only [enterStep, recordNodeInNeo4j, pushStack, List.mem_append,
        List.mem_singleton] at hr
      rcases hr with h | h
      · exact hst r h
      · subst h
        exact qualified_name_ne_empty _ ".#" _ (by decide)
  case objectMethod key =>
      intro r hr
      simp only [enterStep, recordNodeInNeo4j, pushStack, List.mem_append,
        List.mem_singleton] at hr
      rcases hr with h | h
      · exact hst r h
      · subst h
        exact qualified_name_ne_empty _ "." _ (by decide)
  case functionDeclaration id start =>
      intro r hr
      simp only [enterStep, recordNodeInNeo4j, pushStack, List.mem_append,
        List.mem_singleton] at hr
      rcases hr with h | h
      · exact hst r h
      · subst h
        exact getFunctionName_ne_empty anc.head? (.mk (.functionDeclaration id start) cs) hk hp
  case functionExpression start =>
      intro r hr
      revert hr
      simp only [enterStep, recordNodeInNeo4j, pushStack]
      split
      · intro hr
        simp only [List.mem_append, List.mem_singleton] at hr
        rcases hr with h | h
        · exact hst r h
        · subst h
          exact qualified_name_ne_empty _ "." _ (by decide)
      · intro hr
        simp only [List.mem_append, List.mem_singleton] at hr
        rcases hr with h | h
        · exact hst r h
        · subst h
          exact getFunctionName_ne_empty anc.head? (.mk (.functionExpression start) cs) hk hp
  case arrowFunctionExpression start =>
      intro r hr
      revert hr
      simp only [enterStep, recordNodeInNeo4j, pushStack]
      split
      · intro hr
        simp only [List.mem_append, List.mem_singleton] at hr
        rcases hr with h | h
        · exact hst r h
        · subst h
          exact qualified_name_ne_empty _ "." _ (by decide)
      · intro hr
        simp only [List.mem_append, List.mem_singleton] at hr
        rcases hr with h | h
        · exact hst r h
        · subst h
          exact getFunctionName_ne_empty anc.head? (.mk (.arrowFunctionExpression start) cs) hk hp
  case callExpression =>
      intro r hr
      revert hr
      simp only [enterStep, recordNodeInNeo4j, recordRelationshipInNeo4j]
      split
      · intro hr
        exact hst r hr
      · intro hr
        simp only [List.mem_append, List.mem_singleton] at hr
        rcases hr with h | h
        · exact hst r h
        · subst h
          cases cs with
          | nil => decide
          | cons c rest =>
              have hc : wfKind c.kind = true := by
                simp only [JsNode.children, wfList] at hcs
                obtain ⟨k2, cs2⟩ := c
                rw [Bool.and_eq_true] at hcs
                have := hcs.1
                rw [wfNode, Bool.and_eq_true] at this
                exact this.1
              exact calleeNameOf_ne_empty c hc
  all_goals
    intro r hr
  all_goals
    simp only [enterStep] at hr
  all_goals
    exact hst r hr

theorem visit_names_fuel : ∀ fuel : Nat,
    (∀ n : JsNode, sizeOf n ≤ fuel → ∀ anc st, wfNode n = true → ancWf anc = true →
      (∀ r ∈ st.nodes, r.name ≠ "") → ∀ r ∈ (visit anc st n).nodes, r.name ≠ "") ∧
    (∀ l : List JsNode, sizeOf l ≤ fuel → ∀ anc st, wfList l = true → ancWf anc = true →
      (∀ r ∈ st.nodes, r.name ≠ "") → ∀ r ∈ (visitList anc st l).nodes, r.name ≠ "") := by
  intro fuel
  induction fuel with
  | zero =>
      constructor
      · intro n hn
        exfalso
        obtain ⟨k, cs⟩ := n
        simp only [JsNode.mk.sizeOf_spec] at hn
        omega
      · intro l hl
        exfalso
        cases l with
        | nil =>
            simp only [List.nil.sizeOf_spec] at hl
            omega
        | cons c cs =>
            simp only [List.cons.sizeOf_spec] at hl
            omega
  | succ fuel ih =>
      constructor
      · intro n hn anc st hwf hanc hst
        obtain ⟨k, cs⟩ := n
        have hcs : sizeOf cs ≤ fuel := by
          simp only [JsNode.mk.sizeOf_spec] at hn
          omega
        rw [wfNode, Bool.and_eq_true] at hwf
        rw [visit]
        intro r hr
        rw [exitStep_nodes] at hr
        have hanc' : ancWf (JsNode.mk k cs :: anc) = true := by
          rw [ancWf, List.all_cons, Bool.and_eq_true]
          exact ⟨hwf.1, hanc⟩
        have hst' := enterStep_names anc st (.mk k cs) hwf.1 hwf.2 hanc hst
        exact (ih.2) cs hcs (JsNode.mk k cs :: anc) (enterStep anc st (.mk k cs))
          hwf.2 hanc' hst' r hr
      · intro l hl anc st hwf hanc hst
        match l with
        | [] =>
            rw [visitList]
            exact hst
        | c :: cs =>
            have hc : sizeOf c ≤ fuel := by
              simp only [List.cons.sizeOf_spec] at hl
              omega
            have hcs : sizeOf cs ≤ fuel := by
              simp only [List.cons.sizeOf_spec] at hl
              omega
            rw [wfList, Bool.and_eq_true] at hwf
            rw [visitList]
            exact (ih.2) cs hcs anc (visit anc st c) hwf.2 hanc
              ((ih.1) c hc anc st hwf.1 hanc hst)

/-- C6: on any well-formed AST (one whose identifiers are non-empty, as
Babel guarantees for parsed source), every entity record the traversal
emits — declarations, methods, expressions and call-site
`FunctionReference` records alike — has a non-empty name; anonymous
constructs receive synthesized placeholders instead of the empty
string. -/
theorem c6_nonempty_entity_names (t : JsNode) (h : wfNode t = true) :
    (runTraversal t).nodes.all (fun r => r.name != "") = true := by
  rw [List.all_eq_true]
  intro r hr
  have hne := (visit_names_fuel (sizeOf t)).1 t le_rfl [] ⟨[], [], []⟩ h rfl
    (by intro x hx; cases hx) r hr
  exact bne_iff_ne.mpr hne

/-- Witness for C6 on a concrete file with a declaration, an anonymous
function and calls. -/
theorem c6_nonempty_entity_names_witness :
    (runTraversal (.mk .program [.mk (.functionDeclaration (some "greet") 0)
        [.mk .callExpression [.mk (.identifier "log") []]],
      .mk .otherNode [.mk .callExpression [.mk (.functionExpression 40)
        [.mk .callExpression [.mk (.identifier "doThing") []]]]]])).nodes.all
      (fun r => r.name != "") = true :=
  c6_nonempty_entity_names
    (.mk .program [.mk (.functionDeclaration (some "greet") 0)
        [.mk .callExpression [.mk (.identifier "log") []]],
      .mk .otherNode [.mk .callExpression [.mk (.functionExpression 40)
        [.mk .callExpression [.mk (.identifier "doThing") []]]]]])
    (by decide)
